import Mathlib

/-!
Verification of the ugrep search utility (src/src/ugrep.cpp) against its
natural-language specification.  The definitions below are shallow embeddings
of the C++ functions of the source file; machine integers are modelled as
`Nat`, byte buffers as `List Nat` (each element a byte value), and the
external regex engine (reflex) is kept abstract: a per-line match function
or an explicit list of matches is passed as a parameter, exactly as the
engine code consumes `matcher.find`.
-/

namespace Ugrep

/-- A regex match as exposed by the matcher: `first`/`last` are byte offsets
within the bound buffer (`first ≤ last`), `lineno` the 1-based line. -/
structure MatchT where
  first : Nat
  last : Nat
  deriving Repr, DecidableEq

/-- A match of a whole-buffer scan, which additionally carries its line number
(used by count mode, `ugrep.cpp` lines 2287-2308). -/
structure MatchG where
  first : Nat
  last : Nat
  lineno : Nat
  deriving Repr, DecidableEq

/-! ### `is_binary` (ugrep.cpp lines 321-343)

The C loop walks the byte string; it reports binary when it sees a NUL, a
stray UTF-8 continuation byte, or a UTF-8 lead byte not followed by a
continuation byte; after a valid lead byte plus first continuation byte it
skips the run of continuation bytes.  The recursion is fueled by the length
of the list so that the definition stays structurally recursive (each outer
iteration consumes at least one byte). -/

def isCont (b : Nat) : Bool := b &&& 0xc0 == 0x80

def is_binaryF : Nat → List Nat → Bool
  | 0, _ => false
  | _ + 1, [] => false
  | fuel + 1, b :: rest =>
    if b == 0 || b &&& 0xc0 == 0x80 then true
    else if b &&& 0xc0 == 0xc0 then
      match rest with
      | [] => true
      | c :: r2 =>
        if !(c &&& 0xc0 == 0x80) then true
        else is_binaryF fuel (List.dropWhile isCont r2)
    else is_binaryF fuel rest

/-- `is_binary text size`: true if the bytes contain a NUL or invalid UTF-8. -/
def is_binary (l : List Nat) : Bool := is_binaryF l.length l

/-! ### Per-line match iteration (ugrep.cpp lines 2580-2653 / 2514-2518)

`for (auto& match : matcher.find) { ...; last = match.last(); if (last == 0)
break; }` — the loop processes the matches in order and stops right after the
first match whose `last()` offset is 0 ("skip any further empty pattern
matches").  `matchLoop` returns the prefix of the match sequence the loop
body actually processes. -/

def matchLoop : List MatchT → List MatchT
  | [] => []
  | m :: rest => if m.last == 0 then [m] else m :: matchLoop rest

/-! ### Smart case (ugrep.cpp lines 1083-1100)

`-j`: enable ignore-case, then scan the assembled regex left to right;
on a backslash skip the following character; on an ASCII uppercase letter
disable ignore-case and stop.  `smart_case_scan` returns the final value of
`flag_ignore_case`. -/

def is_upperB (b : Nat) : Bool := 65 ≤ b && b ≤ 90

def smart_case_scan : List Nat → Bool
  | [] => true
  | [b] => if b == 92 then true else !(is_upperB b)
  | b :: c :: r2 =>
    if b == 92 then smart_case_scan r2
    else if is_upperB b then false
    else smart_case_scan (c :: r2)

/-- The claim's reading of the smart-case check: the regex contains no ASCII
uppercase letter outside of backslash-escaped positions, where "a character
immediately preceded by a backslash is ignored by the check". -/
def no_unescaped_upper_claim (l : List Nat) : Bool :=
  (List.range l.length).all fun i =>
    !(is_upperB (l.getD i 0)) || (decide (0 < i) && (l.getD (i - 1) 0 == 92))

/-- Number of consecutive backslashes immediately preceding position `i`. -/
def bslashRun (l : List Nat) (i : Nat) : Nat :=
  ((l.take i).reverse.takeWhile (fun b => b == 92)).length

/-- Amended smart-case condition: no ASCII uppercase letter preceded by an
even number (possibly zero) of consecutive backslashes. -/
def no_unescaped_upper (l : List Nat) : Bool :=
  (List.range l.length).all fun i =>
    !(is_upperB (l.getD i 0)) || decide (¬ Even (bslashRun l i))

/-! ### Option normalization (ugrep.cpp lines 1182-1195) -/

structure Opts where
  anyLine : Bool
  invertMatch : Bool
  noGroup : Bool
  onlyMatching : Bool
  afterContext : Nat
  beforeContext : Nat
  deriving Repr, DecidableEq

/-- `-y` disables `-A`, `-B` and `-C`; `-y`, `-A`, `-B`, `-C` disable `-o`;
`-v` disables `-g` and `-o` — in that order, as in `main`. -/
def normalize (o : Opts) : Opts :=
  let o1 := if o.anyLine then { o with afterContext := 0, beforeContext := 0 } else o
  let o2 := if o1.anyLine || decide (0 < o1.afterContext) || decide (0 < o1.beforeContext)
            then { o1 with onlyMatching := false } else o1
  if o2.invertMatch then { o2 with noGroup := false, onlyMatching := false } else o2

/-! ### `getline` (ugrep.cpp lines 262-274 and 277-319)

The reader accumulates bytes up to and including the first newline (or up to
end of input) and reports end-of-input exactly when it hit EOF with an empty
accumulated line: `return ch == EOF && line.empty();`.  The input stream is
modelled as the list of bytes not yet consumed; the result is
(eof-signal, line, remaining input). -/

def getline : List Nat → Bool × List Nat × List Nat
  | [] => (true, [], [])
  | b :: rest =>
    if b == 10 then (false, [b], rest)
    else
      let r := getline rest
      (false, b :: r.2.1, r.2.2)

/-- Repeatedly call `getline` until it signals end of input, collecting the
returned lines — the line iteration of the engine's `while (true) { if
(getline(...)) break; ... }` loops.  Fuel-driven so that the definition is
structurally recursive; `getline` consumes at least one byte per line, so
`input.length + 1` units of fuel always suffice. -/
def readLinesF : Nat → List Nat → List (List Nat)
  | 0, _ => []
  | fuel + 1, input =>
    let r := getline input
    if r.1 then [] else r.2.1 :: readLinesF fuel r.2.2

def readLines (input : List Nat) : List (List Nat) :=
  readLinesF (input.length + 1) input

/-! ### Count mode (ugrep.cpp lines 2236-2333)

Three sub-behaviors of `-c`; each observes `flag_max_count` as an upper
bound.  `find` is the abstract per-line matcher (the list of matches that
`matcher.find` yields on the given line buffer). -/

/-- `-c` with `-v` (lines 2240-2271): count lines with no match, stopping
once `max-count` is reached.  `matcher.find() == 0` means no match. -/
def countInvertAux (find : List Nat → List MatchT) (maxCount : Nat) :
    List (List Nat) → Nat → Nat
  | [], mcount => mcount
  | line :: rest, mcount =>
    if (find line).isEmpty then
      let mcount' := mcount + 1
      if decide (0 < maxCount) && decide (maxCount ≤ mcount') then mcount'
      else countInvertAux find maxCount rest mcount'
    else countInvertAux find maxCount rest mcount

def countInvert (find : List Nat → List MatchT) (maxCount : Nat)
    (lines : List (List Nat)) : Nat :=
  countInvertAux find maxCount lines 0

/-- `-c` with `-g` (lines 2272-2286): count every match of the whole-buffer
scan, stopping once `max-count` is reached. -/
def countNoGroupAux (maxCount : Nat) : List MatchG → Nat → Nat
  | [], mcount => mcount
  | _ :: rest, mcount =>
    let mcount' := mcount + 1
    if decide (0 < maxCount) && decide (maxCount ≤ mcount') then mcount'
    else countNoGroupAux maxCount rest mcount'

def countNoGroup (maxCount : Nat) (ms : List MatchG) : Nat :=
  countNoGroupAux maxCount ms 0

/-- `-c` default (lines 2287-2308): count matching lines, grouping the
whole-buffer matches by `lineno` — `lineno` starts at 0 and a match is
counted exactly when its line number differs from the previous one. -/
def countDefaultAux (maxCount : Nat) : List MatchG → Nat → Nat → Nat
  | [], _, mcount => mcount
  | m :: rest, lineno, mcount =>
    if lineno != m.lineno then
      let mcount' := mcount + 1
      if decide (0 < maxCount) && decide (maxCount ≤ mcount') then mcount'
      else countDefaultAux maxCount rest m.lineno mcount'
    else countDefaultAux maxCount rest lineno mcount

def countDefault (maxCount : Nat) (ms : List MatchG) : Nat :=
  countDefaultAux maxCount ms 0 0

/-! ### Default (line) mode without context (ugrep.cpp lines 2444-2700)

The engine reads the input line by line; per line it computes the `binary`
flag, then either the invert branch (lines 2486-2575) or the normal branch
(lines 2576-2695).  The embedding tracks the line numbers of the lines
emitted as *selected* lines and the `matches` counter (`mcount`); output is
elided.  The three early exits are kept: `--binary-files=without-match`
aborts with zero matches (2471-2477), and a binary match under the default
binary policy prints `Binary file ... matches`, sets `matches = 1` and stops
(2553-2560 and 2582-2587). -/

structure EngineCfg where
  invertMatch : Bool
  anyLine : Bool
  text : Bool
  hexFlag : Bool
  withHex : Bool
  binaryWithoutMatches : Bool
  noGroup : Bool
  maxCount : Nat
  deriving Repr, DecidableEq

/-- One pass of the no-context line loop: returns the list of line numbers
emitted as selected lines together with the final `matches` counter. -/
def ugrepRun (cfg : EngineCfg) (find : List Nat → List MatchT) :
    List (List Nat) → Nat → Nat → List Nat × Nat
  | [], _, mcount => ([], mcount)
  | line :: rest, lineno, mcount =>
    let binary := cfg.hexFlag || (!cfg.text && !cfg.hexFlag && is_binary line)
    if !cfg.text && !cfg.hexFlag && is_binary line && cfg.binaryWithoutMatches then
      ([], 0)
    else if cfg.invertMatch then
      -- -v: select the line when the matcher finds nothing on it
      if (find line).isEmpty then
        if binary && !cfg.hexFlag && !cfg.withHex then
          ([], 1)
        else
          let mcount' := mcount + 1
          if decide (0 < cfg.maxCount) && decide (cfg.maxCount ≤ mcount') then
            ([lineno], mcount')
          else
            let r := ugrepRun cfg find rest (lineno + 1) mcount'
            (lineno :: r.1, r.2)
      else
        -- matches exist: with -y shown as context, otherwise skipped
        ugrepRun cfg find rest (lineno + 1) mcount
    else
      match matchLoop (find line) with
      | [] =>
        -- no match: with -y shown as context; then the max-count check
        if decide (0 < cfg.maxCount) && decide (cfg.maxCount ≤ mcount) then
          ([], mcount)
        else ugrepRun cfg find rest (lineno + 1) mcount
      | processed@(_ :: _) =>
        if binary && !cfg.hexFlag && !cfg.withHex then
          ([], 1)
        else
          -- with -g, `++matches` runs once per processed match and the
          -- max-count check fires as soon as the counter reaches the cap;
          -- without -g, `++matches` runs once for the line
          let mcount' := mcount + (if cfg.noGroup then processed.length else 1)
          if decide (0 < cfg.maxCount) && decide (cfg.maxCount ≤ mcount') then
            ([lineno], min mcount' cfg.maxCount)
          else
            let r := ugrepRun cfg find rest (lineno + 1) mcount'
            (lineno :: r.1, r.2)

/-- Selected line numbers of a full run over `lines`, starting at line 1. -/
def ugrepSelected (cfg : EngineCfg) (find : List Nat → List MatchT)
    (lines : List (List Nat)) : List Nat :=
  (ugrepRun cfg find lines 1 0).1

/-- Reference enumeration: the line numbers (starting at `n`) of the lines
satisfying `p`. -/
def selSpec (p : List Nat → Bool) : List (List Nat) → Nat → List Nat
  | [], _ => []
  | l :: rest, n =>
    if p l then n :: selSpec p rest (n + 1) else selSpec p rest (n + 1)

/-! ### Session result and exit code (ugrep.cpp lines 118-121, 1679-1685,
1688-1742)

`findinfiles` searches the input files in order, incrementing `stats.fileno`
for every file in which `ugrep` found a match and stopping early once
`max-files` matching files were found; it returns `stats.fileno > 0`.
`main` then calls `exit(found ? EXIT_OK : EXIT_FAIL)`; every error path
calls `exit(EXIT_ERROR)`.  A session is modelled by the per-file counts of
selected lines (the `matches` counter with which `ugrep` returns, in file
order) plus whether an error path was taken. -/

def EXIT_OK : Nat := 0
def EXIT_FAIL : Nat := 1
def EXIT_ERROR : Nat := 2

def findinfilesAux (maxFiles : Nat) : List Nat → Nat → Nat
  | [], fileno => fileno
  | c :: rest, fileno =>
    let fileno' := if 0 < c then fileno + 1 else fileno
    if decide (0 < maxFiles) && decide (maxFiles ≤ fileno') then fileno'
    else findinfilesAux maxFiles rest fileno'

/-- `findinfiles` returns whether at least one searched file had a match. -/
def findinfiles_found (maxFiles : Nat) (fileCounts : List Nat) : Bool :=
  decide (0 < findinfilesAux maxFiles fileCounts 0)

/-- The process exit status: `EXIT_ERROR` from an error path, otherwise
`found ? EXIT_OK : EXIT_FAIL`. -/
def exit_status (errored : Bool) (found : Bool) : Nat :=
  if errored then EXIT_ERROR else if found then EXIT_OK else EXIT_FAIL

/-! ### Zero-copy memory mapping (ugrep.cpp lines 3440-3480, 130)

`mmap_file` succeeds only for a `FILE*`-backed input with plain encoding
that `fstat` reports as a regular file of size at most `MAX_MMAP_SIZE`;
the `mmap` system call itself may still fail, which is a parameter here.
`read_file` binds the matcher to the mapped region on success and falls
back to streaming the input otherwise.  When decompression is requested the
engine wraps the file in a decompression stream (`find`, lines 2074-2085),
so the input carries no `FILE*` at all. -/

def MAX_MMAP_SIZE : Nat := 4294967295

inductive Encoding | plain | other
  deriving Repr, DecidableEq

structure FileInfo where
  fstatOk : Bool
  isReg : Bool
  stSize : Nat
  deriving Repr, DecidableEq

/-- `reflex::Input` as the engine sees it: an optional underlying `FILE*`
(with its `fstat` data) and the declared file encoding. -/
structure InputSrc where
  file : Option FileInfo
  encoding : Encoding
  deriving Repr, DecidableEq

/-- The input object `find` constructs for a regular file: a decompression
stream has no underlying `FILE*`. -/
def input_for (decompress : Bool) (f : FileInfo) (enc : Encoding) : InputSrc :=
  if decompress then ⟨none, enc⟩ else ⟨some f, enc⟩

/-- The guards of `mmap_file` before the `mmap` system call. -/
def mmap_attempted (input : InputSrc) : Bool :=
  match input.file with
  | none => false
  | some f =>
    input.encoding == Encoding.plain && f.fstatOk && f.isReg
      && decide (f.stSize ≤ MAX_MMAP_SIZE)

/-- `mmap_file`: `some size` exactly when all guards pass and the `mmap`
call succeeds (`mmapOk`). -/
def mmap_file (input : InputSrc) (mmapOk : Bool) : Option Nat :=
  match input.file with
  | none => none
  | some f =>
    if !(input.encoding == Encoding.plain) then none
    else if !f.fstatOk || !f.isReg || decide (MAX_MMAP_SIZE < f.stSize) then none
    else if mmapOk then some f.stSize else none

inductive MatcherBinding
  | mapped (size : Nat)
  | streamed
  deriving Repr, DecidableEq

/-- `read_file`: `matcher.buffer(base, size + 1)` on mmap success, else
`matcher.input(input)`. -/
def read_file (input : InputSrc) (mmapOk : Bool) : MatcherBinding :=
  match mmap_file input mmapOk with
  | some sz => .mapped sz
  | none => .streamed

/-! ### File selection for a regular file (ugrep.cpp lines 1963-2099)

For a regular file, `find` first consults the exclude-override globs, then
the exclude globs; then the magic block (when `--file-magic` is set): if the
file opens and is not the output sink, a magic hit searches the file at once
(line 2028) and on a match-and-found returns; a magic miss returns unless
include globs exist.  Finally, a non-empty include list admits the file only
when no include-override glob matches and some include glob matches.  Globs
are modelled by their match results against this file's (pathname,
basename); the function returns whether `ugrep` is invoked on the file. -/

def find_regular (exclOverride excl inclOverride incl : List Bool)
    (magicCfg openMagic sameOut magicHit _ugrepHit openFile sameOut2 : Bool) :
    Bool :=
  -- do not exclude files that are overridden by ! negation
  let negate := exclOverride.any id
  if !negate && excl.any id then false
  else
    let includeCheck : Bool :=
      if !incl.isEmpty then
        if inclOverride.any id then false
        else if !(incl.any id) then false
        else openFile && !sameOut2
      else openFile && !sameOut2
    if magicCfg then
      if openMagic then
        if sameOut then false
        else if magicHit then
          -- the magic block searches the file right here; if `ugrep` found
          -- a match the function returns, otherwise it falls through to the
          -- include check (and possibly searches again) — either way the
          -- file was searched
          true
        else if incl.isEmpty then false
        else includeCheck
      else includeCheck
    else includeCheck

/-! ### Hex output buffer (ugrep.cpp lines 154-161, 3259-3361)

`last_hex_line` is a 16-slot staging array of `short`s holding
`(mode << 8) | byte` for filled slots and `-1` for empty ones;
`last_hex_offset` is the absolute offset cursor.  `hex_line` renders one
row — an empty slot prints `" --"` in the hex columns and `'-'` in the
ASCII gutter — and finally resets every slot to `-1`.  The SGR color
sequences wrapped around each cell are elided; cells carry the printable
data only. -/

structure HexBuf where
  slots : List Int   -- 16 entries of last_hex_line
  offset : Nat       -- last_hex_offset
  deriving Repr, DecidableEq

def hexDigit (n : Nat) : Char :=
  if n < 10 then Char.ofNat (48 + n) else Char.ofNat (87 + n)

/-- `fprintf(out, " %.2x", byte & 0xff)` for a filled slot,
`fputs(" --", out)` for an empty one. -/
def hexCellStr (s : Int) : String :=
  if s < 0 then " --"
  else
    let b := s.toNat &&& 0xff
    String.mk [' ', hexDigit (b / 16), hexDigit (b % 16)]

/-- The ASCII gutter: `'-'` for an empty slot; a filled slot shows the byte
itself when printable, a reverse-video control picture under `--color`, and
a space otherwise. -/
def gutterCellStr (color : Bool) (s : Int) : String :=
  if s < 0 then "-"
  else
    let b := s.toNat &&& 0xff
    if b < 0x20 && color then String.mk ['\x1b', '[', '7', 'm', Char.ofNat (64 + b)]
    else if b == 0x7f && color then "\x1b[7m~"
    else if b < 0x20 || 0x7f ≤ b then " "
    else String.mk [Char.ofNat b]

/-- `hex_line`: render the row from the 16 slots, then reset all slots
to `-1`. -/
def hex_line (color : Bool) (buf : HexBuf) :
    (List String × List String) × HexBuf :=
  ((buf.slots.map hexCellStr, buf.slots.map (gutterCellStr color)),
   { buf with slots := List.replicate buf.slots.length (-1) })

/-- The filling loop of `hex_dump` (lines 3277-3282): stage each byte at
slot `offset & 0xf` and flush a row whenever the cursor crosses a 16-byte
boundary; returns the flushed rows and the new buffer state. -/
def hex_dump_fill (color : Bool) (mode : Nat) :
    List Nat → HexBuf → List (List String × List String) × HexBuf
  | [], buf => ([], buf)
  | b :: rest, buf =>
    let slots' := buf.slots.set (buf.offset &&& 0xf) (Int.ofNat ((mode <<< 8) ||| (b &&& 0xff)))
    let buf' : HexBuf := { slots := slots', offset := buf.offset + 1 }
    if buf'.offset &&& 0xf == 0 then
      let fl := hex_line color buf'
      let r := hex_dump_fill color mode rest fl.2
      (fl.1 :: r.1, r.2)
    else
      hex_dump_fill color mode rest buf'

/-! ## Theorems -/

/-- C8: after option processing and before any search: invert-match clears
both no-group and only-matching; any-line or a nonzero before-context or
after-context clears only-matching; and any-line additionally resets both
context sizes to zero. -/
theorem option_conflict_resolution (o : Opts) :
    (o.invertMatch = true →
      (normalize o).noGroup = false ∧ (normalize o).onlyMatching = false) ∧
    ((o.anyLine = true ∨ 0 < o.afterContext ∨ 0 < o.beforeContext) →
      (normalize o).onlyMatching = false) ∧
    (o.anyLine = true →
      (normalize o).afterContext = 0 ∧ (normalize o).beforeContext = 0) := by
  obtain ⟨a, v, g, om, ac, bc⟩ := o
  simp only [normalize]
  split_ifs <;> simp_all

theorem option_conflict_resolution_witness :
    (normalize ⟨true, true, true, true, 3, 2⟩).noGroup = false ∧
    (normalize ⟨true, true, true, true, 3, 2⟩).onlyMatching = false ∧
    (normalize ⟨true, true, true, true, 3, 2⟩).afterContext = 0 ∧
    (normalize ⟨true, true, true, true, 3, 2⟩).beforeContext = 0 := by
  have h := option_conflict_resolution ⟨true, true, true, true, 3, 2⟩
  exact ⟨(h.1 rfl).1, (h.1 rfl).2, (h.2.2 rfl).1, (h.2.2 rfl).2⟩

/-- C5: memory mapping is attempted, and succeeds, only for a regular file
with plain (raw byte) encoding, size at most 4 GiB, and no decompression;
on success the matcher is bound to the mapped region, otherwise the engine
streams the input. -/
theorem mmap_zero_copy (dec : Bool) (f : FileInfo) (enc : Encoding) (ok : Bool) :
    (mmap_attempted (input_for dec f enc) = true →
      dec = false ∧ enc = Encoding.plain ∧ f.isReg = true ∧
        f.stSize ≤ 4 * 1024 * 1024 * 1024) ∧
    ((mmap_file (input_for dec f enc) ok).isSome = true →
      mmap_attempted (input_for dec f enc) = true) ∧
    (∀ sz, mmap_file (input_for dec f enc) ok = some sz →
      read_file (input_for dec f enc) ok = MatcherBinding.mapped sz) ∧
    (mmap_file (input_for dec f enc) ok = none →
      read_file (input_for dec f enc) ok = MatcherBinding.streamed) := by
  obtain ⟨fst, reg, sz⟩ := f
  cases dec <;> cases enc <;> cases fst <;> cases reg <;> cases ok <;>
    refine ⟨?_, ?_, ?_, ?_⟩ <;>
    simp_all [input_for, mmap_attempted, mmap_file, read_file, MAX_MMAP_SIZE] <;>
    first
      | omega
      | (intros; omega)
      | (split_ifs <;> simp_all)

theorem mmap_zero_copy_witness :
    mmap_attempted (input_for false ⟨true, true, 100⟩ Encoding.plain) = true ∧
    read_file (input_for false ⟨true, true, 100⟩ Encoding.plain) true =
      MatcherBinding.mapped 100 := by
  refine ⟨by decide, ?_⟩
  exact (mmap_zero_copy false ⟨true, true, 100⟩ Encoding.plain true).2.2.1 100 (by decide)

/-- C10: `hex_line` resets every staging slot to `-1` after flushing a row;
an empty (never filled) slot renders as `" --"` in the hex columns and `"-"`
in the ASCII gutter; consequently a flush immediately following a flush
renders only empty markers — never a byte staged for an earlier row. -/
theorem hex_line_reset (color : Bool) (buf : HexBuf) (s : Int) :
    (hex_line color buf).2.slots = List.replicate buf.slots.length (-1) ∧
    (s < 0 → hexCellStr s = " --" ∧ gutterCellStr color s = "-") ∧
    (hex_line color ((hex_line color buf).2)).1.1 =
      List.replicate buf.slots.length " --" := by
  refine ⟨rfl, fun hs => ⟨by simp [hexCellStr, hs], by simp [gutterCellStr, hs]⟩, ?_⟩
  simp [hex_line, List.map_replicate, hexCellStr]

theorem hex_line_reset_witness :
    (hex_line false ⟨[256, -1, 3], 16⟩).2.slots = [-1, -1, -1] ∧
    hexCellStr (-1) = " --" ∧ gutterCellStr false (-1) = "-" := by
  have h := hex_line_reset false ⟨[256, -1, 3], 16⟩ (-1)
  exact ⟨h.1, (h.2.1 (by decide)).1, (h.2.1 (by decide)).2⟩

/-- C6 (as stated) is false on the code: when a magic pattern is configured
and matches the file's leading bytes, the file is searched at once, even
though the include list is non-empty and no include glob matches. -/
theorem glob_file_selection_counterexample :
    find_regular [] [] [] [false] true true false true true true false = true ∧
    ([false] : List Bool).any id = false ∧
    ([false] : List Bool) ≠ [] := by
  decide

/-- C6 amended: for a regular file, a matching exclude-override glob makes
the exclude list irrelevant; otherwise a matching exclude glob skips the
file; and with a non-empty include list the file is admitted only if it was
admitted by a matching magic pattern, or no include-override glob matches
and at least one include glob matches. -/
theorem glob_file_selection (exclOv excl inclOv incl : List Bool)
    (magicCfg openMagic sameOut magicHit ugrepHit openFile sameOut2 : Bool) :
    (exclOv.any id = true →
      find_regular exclOv excl inclOv incl
          magicCfg openMagic sameOut magicHit ugrepHit openFile sameOut2 =
        find_regular exclOv [] inclOv incl
          magicCfg openMagic sameOut magicHit ugrepHit openFile sameOut2) ∧
    (exclOv.any id = false → excl.any id = true →
      find_regular exclOv excl inclOv incl
        magicCfg openMagic sameOut magicHit ugrepHit openFile sameOut2 = false) ∧
    (incl ≠ [] →
      find_regular exclOv excl inclOv incl
          magicCfg openMagic sameOut magicHit ugrepHit openFile sameOut2 = true →
      (magicCfg = true ∧ openMagic = true ∧ sameOut = false ∧ magicHit = true) ∨
        (inclOv.any id = false ∧ incl.any id = true)) := by
  refine ⟨fun h1 => ?_, fun h1 h2 => ?_, fun h1 h2 => ?_⟩
  · simp [find_regular, h1]
  · simp [find_regular, h1, h2]
  · revert h2
    have hincl : incl.isEmpty = false := by
      cases incl with
      | nil => exact absurd rfl h1
      | cons a l => rfl
    simp only [find_regular, hincl]
    split_ifs <;> simp_all

/-- Witness for the amended C6 at a concrete configuration: no magic, one
matching include glob. -/
theorem glob_file_selection_witness :
    find_regular [] [] [] [true] false false false false false true false = true ∧
    (([] : List Bool).any id = false ∧ ([true] : List Bool).any id = true) := by
  refine ⟨by decide, ?_⟩
  exact Or.resolve_left
    ((glob_file_selection [] [] [] [true] false false false false false true false).2.2
      (by decide) (by decide))
    (by decide)

/-- C3: the exit code is `EXIT_OK` (0) exactly when the (error-free) session
found a file with at least one selected line, `EXIT_FAIL` (1) exactly when
it did not, and greater than 1 when an error occurred.  `fileCounts` lists
the per-file `matches` counters with which `ugrep` returns. -/
theorem findinfilesAux_pos (maxFiles : Nat) (counts : List Nat) :
    ∀ fileno : Nat,
      (0 < findinfilesAux maxFiles counts fileno ↔
        0 < fileno ∨ ∃ c ∈ counts, 0 < c) := by
  induction counts with
  | nil => intro fileno; simp [findinfilesAux]
  | cons c rest ih =>
    intro fileno
    simp only [findinfilesAux]
    by_cases hc : 0 < c
    · simp only [if_pos hc]
      by_cases hcap : (decide (0 < maxFiles) && decide (maxFiles ≤ fileno + 1)) = true
      · rw [if_pos hcap]
        simp only [List.mem_cons]
        constructor
        · intro _; exact Or.inr ⟨c, Or.inl rfl, hc⟩
        · intro _; omega
      · rw [if_neg hcap, ih]
        simp only [List.mem_cons]
        constructor
        · rintro (h | ⟨x, hx, hxpos⟩)
          · exact Or.inr ⟨c, Or.inl rfl, hc⟩
          · exact Or.inr ⟨x, Or.inr hx, hxpos⟩
        · rintro (h | ⟨x, hx, hxpos⟩)
          · exact Or.inl (by omega)
          · rcases hx with hx | hx
            · exact Or.inl (by omega)
            · exact Or.inr ⟨x, hx, hxpos⟩
    · simp only [if_neg hc]
      by_cases hcap : (decide (0 < maxFiles) && decide (maxFiles ≤ fileno)) = true
      · rw [if_pos hcap]
        simp only [List.mem_cons, Bool.and_eq_true, decide_eq_true_eq] at hcap ⊢
        constructor
        · intro h; exact Or.inl h
        · rintro (h | ⟨x, hx, hxpos⟩)
          · exact h
          · omega
      · rw [if_neg hcap, ih]
        simp only [List.mem_cons]
        constructor
        · rintro (h | ⟨x, hx, hxpos⟩)
          · exact Or.inl h
          · exact Or.inr ⟨x, Or.inr hx, hxpos⟩
        · rintro (h | ⟨x, hx, hxpos⟩)
          · exact Or.inl h
          · rcases hx with hx | hx
            · subst hx; omega
            · exact Or.inr ⟨x, hx, hxpos⟩

theorem exit_code_semantics (errored : Bool) (maxFiles : Nat)
    (fileCounts : List Nat) :
    (errored = true →
      1 < exit_status errored (findinfiles_found maxFiles fileCounts)) ∧
    (errored = false →
      (exit_status errored (findinfiles_found maxFiles fileCounts) = EXIT_OK ↔
        ∃ c ∈ fileCounts, 0 < c) ∧
      (exit_status errored (findinfiles_found maxFiles fileCounts) = EXIT_FAIL ↔
        ¬ ∃ c ∈ fileCounts, 0 < c)) := by
  have hkey : findinfiles_found maxFiles fileCounts = true ↔ ∃ c ∈ fileCounts, 0 < c := by
    unfold findinfiles_found
    rw [decide_eq_true_iff, findinfilesAux_pos maxFiles fileCounts 0]
    simp
  constructor
  · intro he; simp [exit_status, he, EXIT_ERROR]
  · intro he
    subst he
    cases hf : findinfiles_found maxFiles fileCounts with
    | true =>
      rw [hf] at hkey
      simp [exit_status, EXIT_OK, EXIT_FAIL, hkey.mp rfl]
    | false =>
      have : ¬ ∃ c ∈ fileCounts, 0 < c := fun h => by
        have := hkey.mpr h; rw [hf] at this; exact Bool.false_ne_true this
      simp [exit_status, EXIT_OK, EXIT_FAIL, this]

theorem exit_code_semantics_witness :
    exit_status false (findinfiles_found 0 [0, 3]) = EXIT_OK :=
  ((exit_code_semantics false 0 [0, 3]).2 rfl).1.mpr ⟨3, by decide, by decide⟩

/-- C9 helper: the reader signals end of input exactly on an exhausted
stream. -/
theorem getline_eof_iff (input : List Nat) :
    ((getline input).1 = true ↔ input = []) := by
  cases input with
  | nil => simp [getline]
  | cons b rest =>
    simp only [getline]
    split <;> simp

theorem getline_fst_cons (b : Nat) (rest : List Nat) :
    (getline (b :: rest)).1 = false := by
  simp only [getline]
  split <;> rfl

theorem getline_ne_nil (b : Nat) (rest : List Nat) :
    (getline (b :: rest)).2.1 ≠ [] := by
  simp only [getline]
  split <;> simp

/-- The returned line followed by the remaining stream reassembles the
input. -/
theorem getline_append (input : List Nat) :
    (getline input).2.1 ++ (getline input).2.2 = input := by
  induction input with
  | nil => rfl
  | cons b rest ih =>
    simp only [getline]
    split
    · simp
    · simpa using ih

/-- The returned line ends with a newline unless it exhausted the stream. -/
theorem getline_last_or_rest (input : List Nat) (h : input ≠ []) :
    (getline input).2.1.getLast? = some 10 ∨ (getline input).2.2 = [] := by
  induction input with
  | nil => exact absurd rfl h
  | cons b rest ih =>
    simp only [getline]
    split
    · next h10 =>
      left
      simp only [beq_iff_eq] at h10
      simp [h10]
    · cases rest with
      | nil => right; rfl
      | cons c r2 =>
        rcases ih (by simp) with h1 | h1
        · left
          obtain ⟨x, xs, hx⟩ : ∃ x xs, (getline (c :: r2)).2.1 = x :: xs := by
            cases hg : (getline (c :: r2)).2.1 with
            | nil => exact absurd hg (getline_ne_nil c r2)
            | cons x xs => exact ⟨x, xs, rfl⟩
          rw [hx] at h1 ⊢
          simpa [List.getLast?_cons_cons] using h1
        · right; exact h1

theorem getline_rest_length (b : Nat) (rest : List Nat) :
    (getline (b :: rest)).2.2.length < (b :: rest).length := by
  have happ := congrArg List.length (getline_append (b :: rest))
  simp only [List.length_append] at happ
  have hne : 1 ≤ (getline (b :: rest)).2.1.length := by
    cases hg : (getline (b :: rest)).2.1 with
    | nil => exact absurd hg (getline_ne_nil b rest)
    | cons x xs => simp
  omega

theorem readLinesF_nil (fuel : Nat) (h : 0 < fuel) : readLinesF fuel [] = [] := by
  cases fuel with
  | zero => omega
  | succ f => rfl

theorem readLinesF_flatten (fuel : Nat) :
    ∀ input : List Nat, input.length < fuel →
      (readLinesF fuel input).flatten = input := by
  induction fuel with
  | zero => intro input h; omega
  | succ fuel ih =>
    intro input hlen
    cases input with
    | nil => simp [readLinesF, getline]
    | cons b rest =>
      simp only [readLinesF, getline_fst_cons b rest, Bool.false_eq_true,
        if_false, List.flatten_cons]
      have hrest : (getline (b :: rest)).2.2.length < fuel := by
        have := getline_rest_length b rest
        simp only [List.length_cons] at this hlen
        omega
      rw [ih _ hrest, getline_append]

theorem readLinesF_dropLast_newline (fuel : Nat) :
    ∀ input : List Nat, input.length < fuel →
      ∀ l ∈ (readLinesF fuel input).dropLast, l.getLast? = some 10 := by
  induction fuel with
  | zero => intro input h; omega
  | succ fuel ih =>
    intro input hlen l hl
    cases input with
    | nil => simp [readLinesF, getline] at hl
    | cons b rest =>
      simp only [readLinesF, getline_fst_cons b rest, Bool.false_eq_true,
        if_false] at hl
      have hrest : (getline (b :: rest)).2.2.length < fuel := by
        have := getline_rest_length b rest
        simp only [List.length_cons] at this hlen
        omega
      cases hrec : readLinesF fuel (getline (b :: rest)).2.2 with
      | nil => simp [hrec] at hl
      | cons y ys =>
        rw [hrec, List.dropLast_cons₂] at hl
        rcases List.mem_cons.mp hl with h1 | h1
        · subst h1
          rcases getline_last_or_rest (b :: rest) (by simp) with h2 | h2
          · exact h2
          · rw [h2, readLinesF_nil fuel (by omega)] at hrec
            exact absurd hrec (by simp)
        · have := ih _ hrest l
          rw [hrec] at this
          exact this h1

/-- C9: the line reader signals end-of-input only at EOF with an empty
accumulated line; the returned lines reassemble the input byte for byte
(so a final line lacking a newline is still returned and searched), and
every returned line except possibly the last ends with a newline byte. -/
theorem getline_line_splitting (input : List Nat) :
    ((getline input).1 = true ↔ input = []) ∧
    (readLines input).flatten = input ∧
    (∀ l ∈ (readLines input).dropLast, l.getLast? = some 10) := by
  refine ⟨getline_eof_iff input, readLinesF_flatten _ input (Nat.lt_succ_self _),
    fun l hl => readLinesF_dropLast_newline _ input (Nat.lt_succ_self _) l hl⟩

theorem getline_line_splitting_witness :
    (readLines [97, 10, 98]).flatten = [97, 10, 98] ∧
    List.getLast? [97, 10] = some 10 := by
  refine ⟨(getline_line_splitting [97, 10, 98]).2.1, ?_⟩
  exact (getline_line_splitting [97, 10, 98]).2.2 [97, 10] (by decide)

/-- C2 helper: with `max-count` unset, the invert branch counts exactly the
lines without a match. -/
theorem cap_zero_false (k : Nat) :
    ¬ ((decide ((0 : Nat) < 0) && decide ((0 : Nat) ≤ k)) = true) := by
  simp

theorem countInvertAux_zero (find : List Nat → List MatchT) :
    ∀ (lines : List (List Nat)) (m : Nat),
      countInvertAux find 0 lines m =
        m + lines.countP (fun l => (find l).isEmpty) := by
  intro lines
  induction lines with
  | nil => intro m; simp [countInvertAux]
  | cons line rest ih =>
    intro m
    simp only [countInvertAux, List.countP_cons]
    by_cases h : (find line).isEmpty
    · rw [if_pos h, if_neg (cap_zero_false _), ih]
      simp [h]
      omega
    · rw [if_neg h, ih]
      simp [h]

theorem countNoGroupAux_zero :
    ∀ (ms : List MatchG) (m : Nat), countNoGroupAux 0 ms m = m + ms.length := by
  intro ms
  induction ms with
  | nil => intro m; simp [countNoGroupAux]
  | cons mm rest ih =>
    intro m
    simp only [countNoGroupAux, List.length_cons]
    rw [if_neg (cap_zero_false _), ih]
    omega

/-- C2 helper: with `max-count` unset and the matches listed in
non-decreasing line order, the grouping branch counts the distinct line
numbers not equal to the running `lineno` seed. -/
theorem countDefaultAux_zero (ms : List MatchG) :
    ∀ (prev m : Nat),
      List.Pairwise (· ≤ ·) (prev :: ms.map MatchG.lineno) →
      countDefaultAux 0 ms prev m =
        m + ((ms.map MatchG.lineno).toFinset.erase prev).card := by
  induction ms with
  | nil => intro prev m _; simp [countDefaultAux]
  | cons mm rest ih =>
    intro prev m hp
    simp only [List.map_cons] at hp ⊢
    obtain ⟨hle, htail⟩ := List.pairwise_cons.mp hp
    simp only [countDefaultAux]
    by_cases hne : prev = mm.lineno
    · have hbne : (prev != mm.lineno) = false := by simp [hne]
      rw [hbne, if_neg (by simp)]
      have hp2 : List.Pairwise (· ≤ ·) (prev :: rest.map MatchG.lineno) := by
        refine List.pairwise_cons.mpr ⟨fun b hb => hle b (List.mem_cons_of_mem _ hb),
          (List.pairwise_cons.mp htail).2⟩
      rw [ih prev m hp2]
      have hins : (insert mm.lineno (rest.map MatchG.lineno).toFinset).erase prev =
          (rest.map MatchG.lineno).toFinset.erase prev := by
        ext x
        simp only [Finset.mem_erase, Finset.mem_insert]
        constructor
        · rintro ⟨hx, hx2 | hx2⟩
          · omega
          · exact ⟨hx, hx2⟩
        · rintro ⟨hx, hx2⟩
          exact ⟨hx, Or.inr hx2⟩
      rw [List.toFinset_cons, hins]
    · have hbne : (prev != mm.lineno) = true := by simp [hne]
      rw [hbne, if_pos rfl, if_neg (cap_zero_false _)]
      rw [ih mm.lineno (m + 1) htail]
      have hprevlt : ∀ x ∈ mm.lineno :: rest.map MatchG.lineno, prev < x := by
        intro x hx
        rcases List.mem_cons.mp hx with hx | hx
        · subst hx
          exact Nat.lt_of_le_of_ne (hle _ (List.mem_cons_self _ _)) hne
        · have h1 : prev ≤ mm.lineno := hle _ (List.mem_cons_self _ _)
          have h2 : mm.lineno ≤ x := (List.pairwise_cons.mp htail).1 x hx
          have h3 := Nat.lt_of_le_of_ne h1 hne
          omega
      have hnotmem : prev ∉ insert mm.lineno (rest.map MatchG.lineno).toFinset := by
        intro hmem
        rcases Finset.mem_insert.mp hmem with hx | hx
        · exact hne hx
        · have := hprevlt prev (List.mem_cons_of_mem _ (List.mem_toFinset.mp hx))
          omega
      rw [List.toFinset_cons, Finset.erase_eq_of_not_mem hnotmem]
      have hrw : insert mm.lineno (rest.map MatchG.lineno).toFinset =
          insert mm.lineno ((rest.map MatchG.lineno).toFinset.erase mm.lineno) := by
        ext x
        simp only [Finset.mem_insert, Finset.mem_erase]
        constructor
        · rintro (hx | hx)
          · exact Or.inl hx
          · by_cases hxe : x = mm.lineno
            · exact Or.inl hxe
            · exact Or.inr ⟨hxe, hx⟩
        · rintro (hx | ⟨hx1, hx2⟩)
          · exact Or.inl hx
          · exact Or.inr hx2
      rw [hrw, Finset.card_insert_of_not_mem (Finset.not_mem_erase _ _)]
      omega

theorem countInvertAux_le (find : List Nat → List MatchT) (maxCount : Nat) :
    ∀ (lines : List (List Nat)) (m : Nat), m < maxCount →
      countInvertAux find maxCount lines m ≤ maxCount := by
  intro lines
  induction lines with
  | nil => intro m hm; simpa [countInvertAux] using Nat.le_of_lt hm
  | cons line rest ih =>
    intro m hm
    simp only [countInvertAux]
    by_cases h : (find line).isEmpty
    · simp only [if_pos h]
      by_cases hcap : (decide (0 < maxCount) && decide (maxCount ≤ m + 1)) = true
      · rw [if_pos hcap]; omega
      · rw [if_neg hcap]
        simp only [Bool.and_eq_true, decide_eq_true_eq, not_and, not_le] at hcap
        exact ih (m + 1) (hcap (by omega))
    · simp only [if_neg h]
      exact ih m hm

theorem countNoGroupAux_le (maxCount : Nat) :
    ∀ (ms : List MatchG) (m : Nat), m < maxCount →
      countNoGroupAux maxCount ms m ≤ maxCount := by
  intro ms
  induction ms with
  | nil => intro m hm; simpa [countNoGroupAux] using Nat.le_of_lt hm
  | cons mm rest ih =>
    intro m hm
    simp only [countNoGroupAux]
    by_cases hcap : (decide (0 < maxCount) && decide (maxCount ≤ m + 1)) = true
    · rw [if_pos hcap]; omega
    · rw [if_neg hcap]
      simp only [Bool.and_eq_true, decide_eq_true_eq, not_and, not_le] at hcap
      exact ih (m + 1) (hcap (by omega))

theorem countDefaultAux_le (maxCount : Nat) :
    ∀ (ms : List MatchG) (prev m : Nat), m < maxCount →
      countDefaultAux maxCount ms prev m ≤ maxCount := by
  intro ms
  induction ms with
  | nil => intro prev m hm; simpa [countDefaultAux] using Nat.le_of_lt hm
  | cons mm rest ih =>
    intro prev m hm
    simp only [countDefaultAux]
    by_cases hne : (prev != mm.lineno) = true
    · rw [if_pos hne]
      by_cases hcap : (decide (0 < maxCount) && decide (maxCount ≤ m + 1)) = true
      · rw [if_pos hcap]; omega
      · rw [if_neg hcap]
        simp only [Bool.and_eq_true, decide_eq_true_eq, not_and, not_le] at hcap
        exact ih mm.lineno (m + 1) (hcap (by omega))
    · rw [if_neg hne]
      exact ih prev m hm

/-- C2: in count mode the emitted count equals, with `max-count` unset: the
number of lines without a match (invert), the total number of match
occurrences (no-group), or the number of distinct matched line numbers
(default, assuming the matcher reports 1-based non-decreasing line
numbers); and with `max-count` positive, every sub-behavior emits at most
`max-count`. -/
theorem count_mode_semantics (find : List Nat → List MatchT)
    (lines : List (List Nat)) (ms : List MatchG) (maxCount : Nat)
    (hsorted : List.Pairwise (· ≤ ·) (ms.map MatchG.lineno))
    (hpos : ∀ ln ∈ ms.map MatchG.lineno, 0 < ln) :
    (maxCount = 0 →
      countInvert find maxCount lines =
          lines.countP (fun l => (find l).isEmpty) ∧
        countNoGroup maxCount ms = ms.length ∧
        countDefault maxCount ms = (ms.map MatchG.lineno).toFinset.card) ∧
    (0 < maxCount →
      countInvert find maxCount lines ≤ maxCount ∧
        countNoGroup maxCount ms ≤ maxCount ∧
        countDefault maxCount ms ≤ maxCount) := by
  constructor
  · intro h0
    subst h0
    refine ⟨by simpa using countInvertAux_zero find lines 0,
      by simpa using countNoGroupAux_zero ms 0, ?_⟩
    have hp0 : List.Pairwise (· ≤ ·) (0 :: ms.map MatchG.lineno) :=
      List.pairwise_cons.mpr ⟨fun b _ => Nat.zero_le b, hsorted⟩
    have h := countDefaultAux_zero ms 0 0 hp0
    have hzero : (ms.map MatchG.lineno).toFinset.erase 0 =
        (ms.map MatchG.lineno).toFinset := by
      apply Finset.erase_eq_of_not_mem
      intro hmem
      have := hpos 0 (List.mem_toFinset.mp hmem)
      omega
    simpa [countDefault, hzero] using h
  · intro hpos'
    exact ⟨countInvertAux_le find maxCount lines 0 hpos',
      countNoGroupAux_le maxCount ms 0 hpos',
      countDefaultAux_le maxCount ms 0 0 hpos'⟩

theorem count_mode_semantics_witness :
    countInvert (fun l => if l.contains 97 then [⟨0, 1⟩] else []) 0
        [[97, 10], [98, 10]] = 1 ∧
    countNoGroup 0 [⟨0, 1, 1⟩, ⟨2, 3, 1⟩, ⟨0, 1, 2⟩] = 3 ∧
    countDefault 0 [⟨0, 1, 1⟩, ⟨2, 3, 1⟩, ⟨0, 1, 2⟩] = 2 := by
  have h := (count_mode_semantics (fun l => if l.contains 97 then [⟨0, 1⟩] else [])
    [[97, 10], [98, 10]] [⟨0, 1, 1⟩, ⟨2, 3, 1⟩, ⟨0, 1, 2⟩] 0
    (by decide) (by decide)).1 rfl
  refine ⟨?_, ?_, ?_⟩
  · rw [h.1]; decide
  · rw [h.2.1]; decide
  · rw [h.2.2]; decide

/-- C7 helper: `takeWhile` over an append splits on whether the first part
satisfies the predicate throughout. -/
theorem takeWhile_append_all (p : Nat → Bool) (xs ys : List Nat) :
    List.takeWhile p (xs ++ ys) =
      if xs.all p then xs ++ List.takeWhile p ys else List.takeWhile p xs := by
  induction xs with
  | nil => simp
  | cons a t ih =>
    simp only [List.cons_append, List.takeWhile_cons, List.all_cons]
    by_cases ha : p a
    · rw [ih]
      by_cases ht : t.all p <;> simp [ha, ht]
    · simp [ha]

theorem takeWhile_all_self (p : Nat → Bool) (l : List Nat) (h : l.all p = true) :
    List.takeWhile p l = l := by
  induction l with
  | nil => rfl
  | cons a t ih =>
    simp only [List.all_cons, Bool.and_eq_true] at h
    simp [List.takeWhile_cons, h.1, ih h.2]

/-- C7 helper: extending the regex on the left by one character adds one to
the backslash run exactly when the whole prefix below position `i` consists
of backslashes and the new character is one as well. -/
theorem bslashRun_succ (a : Nat) (t : List Nat) (i : Nat) :
    bslashRun (a :: t) (i + 1) =
      bslashRun t i +
        (if ((t.take i).all (fun b => b == 92)) && (a == 92) then 1 else 0) := by
  unfold bslashRun
  simp only [List.take_succ_cons, List.reverse_cons]
  rw [takeWhile_append_all]
  by_cases hall : (t.take i).all (fun b => b == 92) = true
  · have hrev : (t.take i).reverse.all (fun b => b == 92) = true := by
      simpa [List.all_reverse] using hall
    rw [if_pos hrev, takeWhile_all_self _ _ hrev]
    by_cases ha : (a == 92) = true
    · simp [List.takeWhile_cons, ha, hall]
    · simp [List.takeWhile_cons, ha, hall]
  · have hrev : ¬ ((t.take i).reverse.all (fun b => b == 92) = true) := by
      simpa [List.all_reverse] using hall
    rw [if_neg hrev]
    simp [hall]

theorem bslashRun_succ_ne (a : Nat) (t : List Nat) (i : Nat)
    (ha : (a == 92) = false) :
    bslashRun (a :: t) (i + 1) = bslashRun t i := by
  rw [bslashRun_succ]
  simp [ha]

/-- C7 helper: a leading backslash that consumes the following character
changes the preceding-backslash run of later positions by 0 or 2 — parity
is preserved. -/
theorem bslashRun_two_step (c : Nat) (r2 : List Nat) (k : Nat) :
    bslashRun (92 :: c :: r2) (k + 2) % 2 = bslashRun r2 k % 2 := by
  have h1 : bslashRun (92 :: c :: r2) (k + 2) =
      bslashRun (c :: r2) (k + 1) +
        (if (((c :: r2).take (k + 1)).all (fun b => b == 92) && ((92 : Nat) == 92))
         then 1 else 0) :=
    bslashRun_succ 92 (c :: r2) (k + 1)
  have h2 := bslashRun_succ c r2 k
  have hcond : (((c :: r2).take (k + 1)).all (fun b => b == 92) && ((92 : Nat) == 92))
      = ((r2.take k).all (fun b => b == 92) && (c == 92)) := by
    simp only [List.take_succ_cons, List.all_cons]
    cases hc : (c == 92) <;> cases hall : (r2.take k).all (fun b => b == 92) <;> simp
  rw [hcond] at h1
  by_cases hB : ((r2.take k).all (fun b => b == 92) && (c == 92)) = true
  · rw [if_pos hB] at h1 h2
    omega
  · rw [if_neg hB] at h1 h2
    omega

theorem bslashRun_zero (l : List Nat) : bslashRun l 0 = 0 := rfl

theorem bslashRun_one_bslash (t : List Nat) : bslashRun (92 :: t) 1 = 1 := rfl

/-- C7 core: the smart-case scan leaves ignore-case enabled iff every ASCII
uppercase letter of the regex is preceded by an odd number of consecutive
backslashes. -/
theorem smart_case_scan_iff : ∀ l : List Nat,
    smart_case_scan l = true ↔
      ∀ i, i < l.length → is_upperB (l.getD i 0) = true → ¬ Even (bslashRun l i)
  | [] => by simp [smart_case_scan]
  | [b] => by
    constructor
    · intro hscan i hi hup heven
      simp only [List.length_singleton] at hi
      have hi0 : i = 0 := by omega
      subst hi0
      simp only [List.getD_cons_zero] at hup
      by_cases hb : (b == 92) = true
      · have hb' : b = 92 := by simpa using hb
        subst hb'
        simp [is_upperB] at hup
      · rw [show smart_case_scan [b] = !(is_upperB b) from by
          simp [smart_case_scan, hb]] at hscan
        rw [hup] at hscan
        simp at hscan
    · intro hP
      by_cases hb : (b == 92) = true
      · simp [smart_case_scan, hb]
      · have hup : is_upperB b = false := by
          by_contra h
          have hub : is_upperB b = true := by
            revert h; cases (is_upperB b) <;> simp
          have := hP 0 (by simp) (by simpa using hub)
          exact this (by simp [bslashRun_zero])
        simp [smart_case_scan, hb, hup]
  | b :: c :: r2 => by
    by_cases hb : (b == 92) = true
    · have hb' : b = 92 := by simpa using hb
      subst hb'
      rw [show smart_case_scan (92 :: c :: r2) = smart_case_scan r2 from by
        simp [smart_case_scan]]
      rw [smart_case_scan_iff r2]
      constructor
      · -- from the property of the suffix to the property of the full list
        intro hP i hi hup heven
        match i with
        | 0 =>
          simp only [List.getD_cons_zero] at hup
          simp [is_upperB] at hup
        | 1 =>
          rw [bslashRun_one_bslash] at heven
          simp [Nat.even_iff] at heven
        | (k + 2) =>
          have hget : ((92 : Nat) :: c :: r2).getD (k + 2) 0 = r2.getD k 0 := by
            rw [List.getD_cons_succ, List.getD_cons_succ]
          rw [hget] at hup
          simp only [List.length_cons] at hi
          have h := hP k (by omega) hup
          apply h
          have hmod := bslashRun_two_step c r2 k
          rw [Nat.even_iff] at heven ⊢
          omega
      · -- from the property of the full list to the property of the suffix
        intro hP i hi hup heven
        have hget : ((92 : Nat) :: c :: r2).getD (i + 2) 0 = r2.getD i 0 := by
          rw [List.getD_cons_succ, List.getD_cons_succ]
        have h := hP (i + 2) (by simp only [List.length_cons]; omega)
          (by rw [hget]; exact hup)
        apply h
        have hmod := bslashRun_two_step c r2 i
        rw [Nat.even_iff] at heven ⊢
        omega
    · by_cases hup : is_upperB b = true
      · rw [show smart_case_scan (b :: c :: r2) = false from by
          simp [smart_case_scan, hb, hup]]
        simp only [Bool.false_eq_true, false_iff, not_forall]
        refine ⟨0, by simp, by simpa using hup, ?_⟩
        simp [bslashRun_zero]
      · have hupf : is_upperB b = false := by
          revert hup; cases (is_upperB b) <;> simp
        rw [show smart_case_scan (b :: c :: r2) = smart_case_scan (c :: r2) from by
          simp [smart_case_scan, hb, hupf]]
        rw [smart_case_scan_iff (c :: r2)]
        constructor
        · -- from the property of the tail to the property of the full list
          intro hP i hi hup2 heven
          match i with
          | 0 =>
            simp only [List.getD_cons_zero] at hup2
            rw [hup2] at hupf
            simp at hupf
          | (k + 1) =>
            rw [List.getD_cons_succ] at hup2
            simp only [List.length_cons] at hi
            have h := hP k (by simp only [List.length_cons]; omega) hup2
            apply h
            rw [show bslashRun (b :: c :: r2) (k + 1) = bslashRun (c :: r2) k from
              bslashRun_succ_ne b (c :: r2) k (by simpa using hb)] at heven
            exact heven
        · -- from the property of the full list to the property of the tail
          intro hP i hi hup2 heven
          have h := hP (i + 1) (by simp only [List.length_cons] at hi ⊢; omega)
            (by rw [List.getD_cons_succ]; exact hup2)
          apply h
          rw [show bslashRun (b :: c :: r2) (i + 1) = bslashRun (c :: r2) i from
            bslashRun_succ_ne b (c :: r2) i (by simpa using hb)]
          exact heven
termination_by l => l.length

/-- C7 (as stated) is false on the code: in the regex `\\B` (backslash,
backslash, uppercase B) the `B` is immediately preceded by a backslash, so
the claim predicts that it is ignored and ignore-case stays on; but the
scan pairs the second backslash with the first and still sees the `B`,
disabling ignore-case. -/
theorem smart_case_counterexample :
    ¬ (smart_case_scan [92, 92, 66] = true ↔
        no_unescaped_upper_claim [92, 92, 66] = true) := by
  decide

/-- C7 amended: under smart-case, ignore-case is enabled iff the assembled
regex (from the command-line patterns, at the point of the check) contains
no ASCII uppercase letter preceded by an even number — possibly zero — of
consecutive backslashes. -/
theorem smart_case_amended (l : List Nat) :
    smart_case_scan l = no_unescaped_upper l := by
  have h2 : no_unescaped_upper l = true ↔
      ∀ i, i < l.length → is_upperB (l.getD i 0) = true → ¬ Even (bslashRun l i) := by
    unfold no_unescaped_upper
    rw [List.all_eq_true]
    constructor
    · intro h i hi hup
      have hh := h i (List.mem_range.mpr hi)
      rw [hup] at hh
      simp only [Bool.not_true, Bool.false_or] at hh
      exact of_decide_eq_true hh
    · intro h i hi
      have hi' := List.mem_range.mp hi
      by_cases hup : is_upperB (l.getD i 0) = true
      · rw [hup]
        simp only [Bool.not_true, Bool.false_or]
        exact decide_eq_true (h i hi' hup)
      · have hupf : is_upperB (l.getD i 0) = false := by
          revert hup; cases (is_upperB (l.getD i 0)) <;> simp
        rw [hupf]
        simp
  have h := (smart_case_scan_iff l).trans h2.symm
  cases hs : smart_case_scan l <;> cases hn : no_unescaped_upper l <;> simp_all

/-- C1 helper: the per-line match loop processes a non-empty prefix of a
non-empty match list. -/
theorem matchLoop_cons (m : MatchT) (ms : List MatchT) :
    ∃ x xs, matchLoop (m :: ms) = x :: xs := by
  by_cases h : (m.last == 0) = true
  · exact ⟨m, [], by simp [matchLoop, h]⟩
  · exact ⟨m, matchLoop ms, by simp [matchLoop, h]⟩

/-- C1 helper: with `max-count` unset and no line that the engine's content
check classifies as binary (`!flag_text && !flag_hex && is_binary(...)`,
ugrep.cpp line 2471 — vacuous under the text option or forced hex), the
engine's selected lines are exactly the lines passing the per-line selection
predicate — no-match under invert, some match otherwise. -/
theorem ugrepRun_selected_spec (cfg : EngineCfg) (find : List Nat → List MatchT)
    (lines : List (List Nat))
    (hbin : ∀ l ∈ lines, (!cfg.text && !cfg.hexFlag && is_binary l) = false)
    (hmc : cfg.maxCount = 0) :
    ∀ (lineno m : Nat),
      (ugrepRun cfg find lines lineno m).1 =
        selSpec (fun l => if cfg.invertMatch then (find l).isEmpty
                          else !(find l).isEmpty) lines lineno := by
  induction lines with
  | nil => intro lineno m; rfl
  | cons line rest ih =>
    intro lineno m
    have hbl : (!cfg.text && !cfg.hexFlag && is_binary line) = false :=
      hbin line (List.mem_cons_self _ _)
    have hbrest : ∀ l ∈ rest, (!cfg.text && !cfg.hexFlag && is_binary l) = false :=
      fun l hl => hbin l (List.mem_cons_of_mem _ hl)
    have ih' := ih hbrest
    simp only [ugrepRun, selSpec, hbl, hmc, Bool.and_false, Bool.false_and,
      Bool.false_eq_true, if_false, Bool.or_false, Bool.and_not_self,
      show (decide ((0 : Nat) < 0)) = false from rfl]
    by_cases hinv : cfg.invertMatch = true
    · simp only [hinv, eq_self_iff_true, if_true] at ih' ⊢
      by_cases hfe : (find line).isEmpty = true
      · simp only [hfe, eq_self_iff_true, if_true]
        exact congrArg (lineno :: ·) (ih' (lineno + 1) (m + 1))
      · have hfe' : (find line).isEmpty = false := by
          revert hfe; cases ((find line).isEmpty) <;> simp
        simp only [hfe', Bool.false_eq_true, if_false]
        exact ih' (lineno + 1) m
    · have hinv' : cfg.invertMatch = false := by
        revert hinv; cases cfg.invertMatch <;> simp
      simp only [hinv', Bool.false_eq_true, if_false] at ih' ⊢
      cases hf : find line with
      | nil =>
        simp only [hf, show matchLoop ([] : List MatchT) = [] from rfl,
          List.isEmpty_nil, Bool.not_true, Bool.false_eq_true, if_false]
        exact ih' (lineno + 1) m
      | cons mm mms =>
        obtain ⟨x, xs, hx⟩ := matchLoop_cons mm mms
        simp only [hf, hx, List.isEmpty_cons, Bool.not_false, if_true]
        exact congrArg (lineno :: ·) (ih' (lineno + 1) _)

theorem selSpec_mem_ge (p : List Nat → Bool) :
    ∀ (lines : List (List Nat)) (n k : Nat), k ∈ selSpec p lines n → n ≤ k := by
  intro lines
  induction lines with
  | nil => intro n k h; simp [selSpec] at h
  | cons l rest ih =>
    intro n k h
    simp only [selSpec] at h
    by_cases hp : p l
    · rw [if_pos hp] at h
      rcases List.mem_cons.mp h with h1 | h1
      · omega
      · have := ih (n + 1) k h1; omega
    · rw [if_neg hp] at h
      have := ih (n + 1) k h; omega

/-- C1 helper: within the line-number range, membership in the selection for
a predicate is the complement of membership in the selection for its
negation. -/
theorem selSpec_compl (p : List Nat → Bool) :
    ∀ (lines : List (List Nat)) (n k : Nat), n ≤ k → k < n + lines.length →
      (k ∈ selSpec p lines n ↔ ¬ (k ∈ selSpec (fun l => !(p l)) lines n)) := by
  intro lines
  induction lines with
  | nil => intro n k h1 h2; simp only [List.length_nil] at h2; omega
  | cons l rest ih =>
    intro n k h1 h2
    simp only [List.length_cons] at h2
    simp only [selSpec]
    by_cases hp : p l
    · rw [if_pos hp, if_neg (by simp [hp])]
      by_cases hk : k = n
      · subst hk
        constructor
        · intro _ hmem
          exact absurd (selSpec_mem_ge _ rest (k + 1) k hmem) (by omega)
        · intro _
          exact List.mem_cons_self _ _
      · constructor
        · intro hmem
          rcases List.mem_cons.mp hmem with h | h
          · exact absurd h hk
          · exact (ih (n + 1) k (by omega) (by omega)).mp h
        · intro hnot
          exact List.mem_cons_of_mem _ ((ih (n + 1) k (by omega) (by omega)).mpr hnot)
    · rw [if_neg hp, if_pos (by simp [hp])]
      by_cases hk : k = n
      · subst hk
        constructor
        · intro hmem
          exact absurd (selSpec_mem_ge _ rest (k + 1) k hmem) (by omega)
        · intro hnot
          exact absurd (List.mem_cons_self _ _) hnot
      · constructor
        · intro hmem hor
          rcases List.mem_cons.mp hor with h | h
          · exact hk h
          · exact (ih (n + 1) k (by omega) (by omega)).mp hmem h
        · intro hnot
          refine (ih (n + 1) k (by omega) (by omega)).mpr ?_
          intro hq
          exact hnot (List.mem_cons_of_mem _ hq)

/-- C1 (as stated) is false on the code: under the default binary policy, a
binary line with a match makes the non-invert run print
`Binary file ... matches` and stop, so a later matching line is selected in
neither run.  Input: line 1 is `a<NUL>\n` (binary, matches), line 2 is
`a\n` (matches); the pattern matches any line containing `a` (byte 97). -/
theorem invert_complementarity_counterexample :
    ¬ ((2 ∈ ugrepSelected ⟨true, false, false, false, false, false, false, 0⟩
          (fun l => if l.contains 97 then [⟨0, 1⟩] else []) [[97, 0, 10], [97, 10]]) ↔
        ¬ (2 ∈ ugrepSelected ⟨false, false, false, false, false, false, false, 0⟩
          (fun l => if l.contains 97 then [⟨0, 1⟩] else []) [[97, 0, 10], [97, 10]])) := by
  decide

/-- C1 amended: with `max-count` unset and no input line classified as
binary by the engine — the content check requires text mode off, hex mode
off, and a NUL or invalid UTF-8 in the line, so under the text option `-a`
(or forced hex) nothing qualifies — a run with invert-match selects exactly
those lines that the run without invert-match deselects: every input line
is selected in exactly one of the two runs. -/
theorem invert_complementarity (cfg : EngineCfg) (find : List Nat → List MatchT)
    (lines : List (List Nat))
    (hbin : ∀ l ∈ lines, (!cfg.text && !cfg.hexFlag && is_binary l) = false)
    (hmc : cfg.maxCount = 0) (k : Nat) (hk1 : 1 ≤ k) (hk2 : k ≤ lines.length) :
    (k ∈ ugrepSelected { cfg with invertMatch := true } find lines ↔
      ¬ (k ∈ ugrepSelected { cfg with invertMatch := false } find lines)) := by
  unfold ugrepSelected
  rw [ugrepRun_selected_spec _ find lines (by simpa using hbin) (by simpa using hmc) 1 0,
      ugrepRun_selected_spec _ find lines (by simpa using hbin) (by simpa using hmc) 1 0]
  have h := selSpec_compl (fun l => (find l).isEmpty) lines 1 k hk1 (by omega)
  simpa using h

/-- Witness at the amended claim's own example: text mode (`-a`) with a
NUL-containing first line — the engine classifies no line as binary, and
complementarity holds. -/
theorem invert_complementarity_witness :
    (2 ∈ ugrepSelected ⟨true, false, true, false, false, false, false, 0⟩
        (fun l => if l.contains 97 then [⟨0, 1⟩] else []) [[97, 0, 10], [98, 10]]) ↔
      ¬ (2 ∈ ugrepSelected ⟨false, false, true, false, false, false, false, 0⟩
        (fun l => if l.contains 97 then [⟨0, 1⟩] else []) [[97, 0, 10], [98, 10]]) :=
  invert_complementarity ⟨false, false, true, false, false, false, false, 0⟩
    (fun l => if l.contains 97 then [⟨0, 1⟩] else []) [[97, 0, 10], [98, 10]]
    (by decide) rfl 2 (by decide) (by decide)

/-- C4 (as stated) is false on the code: the per-line loop breaks only on a
match whose end offset `last()` is 0.  A zero-width match at offset 1
(`first = last = 1`) does not terminate the iteration — the following match
is still processed. -/
theorem zero_width_break_counterexample :
    (MatchT.mk 1 1).last - (MatchT.mk 1 1).first = 0 ∧
    matchLoop [MatchT.mk 1 1, MatchT.mk 2 3] =
      [MatchT.mk 1 1, MatchT.mk 2 3] := by
  decide

/-- C4 amended: the per-line match iteration stops right after the first
match whose end offset is 0 (a zero-width match at the start of the line),
and therefore processes at most one such match — an unbounded run of empty
line-start matches is cut off after its first element. -/
theorem zero_width_break (ms : List MatchT) :
    matchLoop ms = ms.take (ms.findIdx (fun m => m.last == 0) + 1) ∧
    (matchLoop ms).countP (fun m => m.last == 0) ≤ 1 := by
  induction ms with
  | nil => simp [matchLoop]
  | cons m rest ih =>
    by_cases h : m.last = 0
    · simp [matchLoop, h, List.findIdx_cons, List.countP_cons]
    · have hm : (m.last == 0) = false := by simp [h]
      simp only [matchLoop, hm, Bool.false_eq_true, if_false, List.findIdx_cons,
        List.countP_cons, cond_false]
      refine ⟨?_, by simpa [hm] using ih.2⟩
      rw [ih.1]
      rfl

end Ugrep
